import Mathlib

/-!
Verification of the portfolio aggregation slice of the web front end:
the account-to-portfolio normalizer, the fiat-valuation selectors, the
useFetchAsset effect and the getAccounts query orchestrator, shallowly
embedded over an insertion-ordered string-keyed object model.
-/

namespace PortfolioSpec

/-- A JavaScript-object-like value: an insertion-ordered list of string keys
with values; the first occurrence of a key is the one reads observe. -/
abbrev Obj (α : Type) : Type := List (String × α)

/-- Property read obj[k]: the value at the first occurrence of key k. -/
def objGet {α : Type} : Obj α → String → Option α
  | [], _ => none
  | (k2, v) :: rest, k => if k2 = k then some v else objGet rest k

/-- JS assignment obj[k] = v: overwrite the value when the key is present,
otherwise append the pair at the end (preserving key order). -/
def objSet {α : Type} (m : Obj α) (k : String) (v : α) : Obj α :=
  if (objGet m k).isSome then m.map (fun p => if p.1 = k then (k, v) else p)
  else m ++ [(k, v)]

/-- In-place mutation of the value stored at key k (such as an array push on
obj[k]); a no-op when the key is absent. -/
def objModify {α : Type} (m : Obj α) (k : String) (f : α → α) : Obj α :=
  m.map (fun p => if p.1 = k then (p.1, f p.2) else p)

/-- The keys of the object, in insertion order. -/
def objKeys {α : Type} (m : Obj α) : List String :=
  m.map Prod.fst

@[simp]
theorem objGet_nil {α : Type} (k : String) : objGet ([] : Obj α) k = none := rfl

@[simp]
theorem objGet_cons {α : Type} (k2 k : String) (v : α) (rest : Obj α) :
    objGet ((k2, v) :: rest) k = if k2 = k then some v else objGet rest k := rfl

theorem objGet_append_of_none {α : Type} {m : Obj α} {k : String}
    (h : objGet m k = none) (m2 : Obj α) : objGet (m ++ m2) k = objGet m2 k := by
  induction m with
  | nil => simp
  | cons p rest ih =>
    obtain ⟨k2, v⟩ := p
    by_cases hk : k2 = k
    · simp [hk] at h
    · simp only [objGet_cons, hk, if_false] at h
      simpa [hk] using ih h

theorem objGet_map_set_self {α : Type} {m : Obj α} {k : String} (v : α)
    (h : (objGet m k).isSome) :
    objGet (m.map (fun p => if p.1 = k then (k, v) else p)) k = some v := by
  induction m with
  | nil => simp at h
  | cons p rest ih =>
    obtain ⟨k2, w⟩ := p
    by_cases hk : k2 = k
    · simp [hk]
    · simp only [objGet_cons, hk, if_false] at h
      simpa [hk] using ih h

theorem objGet_map_set_ne {α : Type} {m : Obj α} {k a : String} (v : α)
    (h : a ≠ k) :
    objGet (m.map (fun p => if p.1 = k then (k, v) else p)) a = objGet m a := by
  induction m with
  | nil => simp
  | cons p rest ih =>
    obtain ⟨k2, w⟩ := p
    rw [List.map_cons]
    by_cases hk : k2 = k
    · have hka : ¬ (k = a) := fun he => h he.symm
      have hk2a : ¬ (k2 = a) := fun he => h (he.symm.trans hk)
      have e1 : (if (k2, w).1 = k then ((k : String), v) else (k2, w)) = (k, v) := by
        simp [hk]
      rw [e1, objGet_cons, if_neg hka, objGet_cons, if_neg hk2a]
      exact ih
    · have e1 : (if (k2, w).1 = k then ((k : String), v) else (k2, w)) = (k2, w) := by
        simp [hk]
      rw [e1, objGet_cons, objGet_cons]
      by_cases h2a : k2 = a
      · simp [h2a]
      · rw [if_neg h2a, if_neg h2a]
        exact ih

theorem objGet_append_single_ne {α : Type} (m : Obj α) {k a : String} (v : α)
    (h : a ≠ k) : objGet (m ++ [(k, v)]) a = objGet m a := by
  induction m with
  | nil =>
    have hka : ¬ (k = a) := fun he => h he.symm
    simp [hka]
  | cons p rest ih =>
    obtain ⟨k2, w⟩ := p
    by_cases h2a : k2 = a
    · simp [h2a]
    · simp only [List.cons_append, objGet_cons, h2a, if_false]
      exact ih

@[simp]
theorem objGet_objSet_self {α : Type} (m : Obj α) (k : String) (v : α) :
    objGet (objSet m k v) k = some v := by
  unfold objSet
  by_cases h : (objGet m k).isSome
  · rw [if_pos h]
    exact objGet_map_set_self v h
  · rw [if_neg h]
    have hnone : objGet m k = none := by
      cases hg : objGet m k with
      | none => rfl
      | some w => rw [hg] at h; simp at h
    rw [objGet_append_of_none hnone]
    simp

theorem objGet_objSet_ne {α : Type} (m : Obj α) {k a : String} (v : α)
    (h : a ≠ k) : objGet (objSet m k v) a = objGet m a := by
  unfold objSet
  by_cases hs : (objGet m k).isSome
  · rw [if_pos hs]
    exact objGet_map_set_ne v h
  · rw [if_neg hs]
    exact objGet_append_single_ne m v h

theorem isSome_objGet_objSet {α : Type} (m : Obj α) (k a : String) (v : α) :
    (objGet (objSet m k v) a).isSome ↔ (a = k ∨ (objGet m a).isSome) := by
  by_cases h : a = k
  · subst h; simp
  · rw [objGet_objSet_ne m v h]
    simp [h]

theorem objGet_objModify {α : Type} (m : Obj α) (k a : String) (f : α → α) :
    objGet (objModify m k f) a =
      if a = k then (objGet m a).map f else objGet m a := by
  induction m with
  | nil => by_cases h : a = k <;> simp [objModify, h]
  | cons p rest ih =>
    obtain ⟨k2, w⟩ := p
    unfold objModify at ih ⊢
    rw [List.map_cons]
    by_cases h2k : k2 = k
    · have e1 : (if (k2, w).1 = k then ((k2, w).1, f (k2, w).2) else (k2, w))
          = (k2, f w) := by simp [h2k]
      rw [e1, objGet_cons, objGet_cons]
      by_cases h2a : k2 = a
      · have hak : a = k := h2a.symm.trans h2k
        rw [if_pos h2a, if_pos hak, if_pos h2a]
        simp
      · rw [if_neg h2a, if_neg h2a]
        exact ih
    · have e1 : (if (k2, w).1 = k then ((k2, w).1, f (k2, w).2) else (k2, w))
          = (k2, w) := by simp [h2k]
      rw [e1, objGet_cons, objGet_cons]
      by_cases h2a : k2 = a
      · have hak : ¬ (a = k) := fun he => h2k (h2a.trans he)
        rw [if_pos h2a, if_neg hak, if_pos h2a]
      · rw [if_neg h2a, if_neg h2a]
        exact ih

theorem objGet_objModify_self {α : Type} (m : Obj α) (k : String) (f : α → α) :
    objGet (objModify m k f) k = (objGet m k).map f := by
  simp [objGet_objModify]

theorem objGet_objModify_ne {α : Type} (m : Obj α) {k a : String} (f : α → α)
    (h : a ≠ k) : objGet (objModify m k f) a = objGet m a := by
  simp [objGet_objModify, h]

theorem objModify_objModify {α : Type} (m : Obj α) (k : String) (f g : α → α) :
    objModify (objModify m k f) k g = objModify m k (fun x => g (f x)) := by
  unfold objModify
  rw [List.map_map]
  have e : ((fun p : String × α => if p.1 = k then (p.1, g p.2) else p) ∘
      (fun p : String × α => if p.1 = k then (p.1, f p.2) else p)) =
      fun p : String × α => if p.1 = k then (p.1, g (f p.2)) else p := by
    funext p
    obtain ⟨pa, pb⟩ := p
    by_cases h : pa = k <;> simp [h]
  rw [e]

theorem objModify_congr {α : Type} (m : Obj α) (k : String) {f g : α → α}
    (h : ∀ x, f x = g x) : objModify m k f = objModify m k g := by
  have : f = g := funext h
  rw [this]

theorem objModify_id {α : Type} (m : Obj α) (k : String) (f : α → α)
    (h : ∀ x, f x = x) : objModify m k f = m := by
  unfold objModify
  have e : (fun p : String × α => if p.1 = k then (p.1, f p.2) else p) = id := by
    funext p
    obtain ⟨pa, pb⟩ := p
    by_cases hk : pa = k <;> simp [hk, h]
  rw [e, List.map_id]

theorem objKeys_objSet_of_absent {α : Type} {m : Obj α} {k : String} (v : α)
    (h : objGet m k = none) : objKeys (objSet m k v) = objKeys m ++ [k] := by
  unfold objSet
  rw [if_neg (by simp [h]), objKeys, objKeys]
  simp

/-- Model of a JavaScript string used as a decimal numeral: some q stands for
a string denoting the exact decimal value q, none for an absent value or a
string that does not parse as a number (bn of it is NaN). -/
abbrev BStr : Type := Option ℚ

/-- Modelled from the spec: bnOrZero of lib/bignumber is not among the
reviewed sources; per the spec, values are coerced to zero if absent or
invalid. -/
def bnOrZero (s : BStr) : ℚ := s.getD 0

/-- BigNumber rounding to an integer with the library default ROUND_HALF_UP
(halves round away from zero). -/
def roundHalfUp (q : ℚ) : ℤ := if 0 ≤ q then ⌊q + 1 / 2⌋ else -⌊-q + 1 / 2⌋

/-- BigNumber decimalPlaces(n) with the default ROUND_HALF_UP mode, on the
exact rational value. -/
def decimalPlaces (n : ℕ) (q : ℚ) : ℚ := (roundHalfUp (q * 10 ^ n) : ℚ) / 10 ^ n

/-- BigNumber toFixed(2) (default ROUND_HALF_UP), read as the value the
produced string denotes. -/
def toFixed2 (q : ℚ) : ℚ := decimalPlaces 2 q

theorem roundHalfUp_intCast (z : ℤ) : roundHalfUp (z : ℚ) = z := by
  unfold roundHalfUp
  have hhalf : ⌊(1 : ℚ) / 2⌋ = 0 := by
    rw [Int.floor_eq_iff]
    norm_num
  by_cases h : (0 : ℚ) ≤ (z : ℚ)
  · rw [if_pos h, add_comm, Int.floor_add_int, hhalf, zero_add]
  · rw [if_neg h]
    have : -(z : ℚ) + 1 / 2 = 1 / 2 + (-z : ℤ) := by push_cast; ring
    rw [this, Int.floor_add_int, hhalf, zero_add, neg_neg]

theorem decimalPlaces_zero_intCast (z : ℤ) : decimalPlaces 0 (z : ℚ) = z := by
  unfold decimalPlaces
  simp [roundHalfUp_intCast]

theorem decimalPlaces_intCast (n : ℕ) (z : ℤ) : decimalPlaces n (z : ℚ) = z := by
  unfold decimalPlaces
  have e : (z : ℚ) * 10 ^ n = ((z * 10 ^ n : ℤ) : ℚ) := by push_cast; ring
  rw [e, roundHalfUp_intCast]
  push_cast
  have h10 : ((10 : ℚ) ^ n) ≠ 0 := by positivity
  field_simp

theorem decimalPlaces_natCast (n m : ℕ) : decimalPlaces n (m : ℚ) = m := by
  have := decimalPlaces_intCast n (m : ℤ)
  push_cast at this
  exact this

/-- The ChainTypes enumeration of the chain-adapter types package: the two
chains the normalizer handles, plus any other chain kind by name. -/
inductive ChainTypes where
  | Ethereum : ChainTypes
  | Bitcoin : ChainTypes
  | Other : String → ChainTypes
deriving DecidableEq

def ChainTypes.chainName : ChainTypes → String
  | .Ethereum => "ethereum"
  | .Bitcoin => "bitcoin"
  | .Other n => n

/-- Models caip19.toCAIP19 of the external caip package applied to a chain and
network only (the identifier of the chain's native asset). -/
def toCAIP19 (chain : ChainTypes) (network : String) : String :=
  chain.chainName ++ ":" ++ network ++ "/slip44:0"

/-- Models caip19.toCAIP19 of the external caip package applied with contract
type and token contract (the identifier of a token asset). -/
def toCAIP19Token (chain : ChainTypes) (network contractType tokenId : String) : String :=
  chain.chainName ++ ":" ++ network ++ "/" ++ contractType ++ ":" ++ tokenId

/-- A token entry of an Ethereum account response: contractType, contract and
balance are the fields the normalizer destructures. -/
structure EthToken where
  contractType : String
  contract : String
  balance : BStr
deriving DecidableEq

/-- chainSpecific of an Ethereum account: an optional token list. -/
structure EthChainSpecific where
  tokens : Option (List EthToken)
deriving DecidableEq

/-- One derived address of a Bitcoin account with its balance. -/
structure BtcAddress where
  pubkey : String
  balance : BStr
deriving DecidableEq

/-- chainSpecific of a Bitcoin account: an optional list of derived
addresses. -/
structure BtcChainSpecific where
  addresses : Option (List BtcAddress)
deriving DecidableEq

/-- The chain-specific payload of a chainAdapters account response, tagged by
the chain kind exactly as Account of ChainTypes ties them together. -/
inductive ChainSpecific where
  | ethereum : EthChainSpecific → ChainSpecific
  | bitcoin : BtcChainSpecific → ChainSpecific
  | other : String → ChainSpecific
deriving DecidableEq

/-- A raw chainAdapters account record: the fields accountsToPortfolio and the
getAccounts query read. -/
structure Account where
  network : String
  pubkey : String
  balance : BStr
  chainSpecific : ChainSpecific
deriving DecidableEq

/-- The chain discriminant of an account record. -/
def Account.chain (a : Account) : ChainTypes :=
  match a.chainSpecific with
  | .ethereum _ => .Ethereum
  | .bitcoin _ => .Bitcoin
  | .other n => .Other n

structure PortfolioAccounts where
  byId : Obj (List String)
  ids : List String
deriving DecidableEq

structure PortfolioBalances where
  byId : Obj BStr
  ids : List String
deriving DecidableEq

structure Portfolio where
  accounts : PortfolioAccounts
  balances : PortfolioBalances
deriving DecidableEq

def initialState : Portfolio :=
  { accounts := { byId := [], ids := [] }, balances := { byId := [], ids := [] } }

/-- Models String.prototype.toLowerCase: lower-case every character (written
over the character list so that it evaluates by kernel reduction). -/
def toLowerString (s : String) : String :=
  ⟨s.data.map Char.toLower⟩

/-- The asset identifier the Ethereum branch computes for one token:
caip19.toCAIP19 with contract information, then toLowerCase. -/
def tokenAssetId (network : String) (token : EthToken) : String :=
  toLowerString (toCAIP19Token .Ethereum network token.contractType token.contract)

/-- The body of the tokens.forEach arrow function inside the Ethereum branch
of accountsToPortfolio: push the token asset id onto the account's asset
list, push it onto balances.ids and record its balance in balances.byId. -/
def ethTokenStep (network caip10 : String) (p : Portfolio) (token : EthToken) : Portfolio :=
  let tokenCAIP19 := tokenAssetId network token
  { accounts := { byId := objModify p.accounts.byId caip10 (fun l => l ++ [tokenCAIP19]),
                  ids := p.accounts.ids },
    balances := { byId := objSet p.balances.byId tokenCAIP19 token.balance,
                  ids := p.balances.ids ++ [tokenCAIP19] } }

/-- One iteration of the Object.entries(args).forEach loop of
accountsToPortfolio: register the account id with an empty asset list, then
dispatch on the chain kind (Ethereum, Bitcoin, or silently skipped). -/
def processAccount (p : Portfolio) (entry : String × Account) : Portfolio :=
  let caip10 := entry.1
  let account := entry.2
  let p1 : Portfolio :=
    { p with accounts := { byId := objSet p.accounts.byId caip10 [],
                           ids := p.accounts.ids ++ [caip10] } }
  match account.chainSpecific with
  | .ethereum cs =>
    let ethCAIP19 := toCAIP19 .Ethereum account.network
    let p2 : Portfolio :=
      { accounts := { byId := objModify p1.accounts.byId caip10 (fun l => l ++ [ethCAIP19]),
                      ids := p1.accounts.ids },
        balances := { byId := objSet p1.balances.byId ethCAIP19 account.balance,
                      ids := p1.balances.ids ++ [ethCAIP19] } }
    match cs.tokens with
    | none => p2
    | some tokens => tokens.foldl (ethTokenStep account.network caip10) p2
  | .bitcoin cs =>
    let btcCAIP19 := toCAIP19 .Bitcoin account.network
    let addresses := cs.addresses.getD []
    let totalSats := addresses.foldl (fun acc cur => acc + bnOrZero cur.balance) 0
    let balance : BStr := some (decimalPlaces 0 totalSats)
    { accounts := { byId := objModify p1.accounts.byId caip10 (fun l => l ++ [btcCAIP19]),
                    ids := p1.accounts.ids },
      balances := { byId := objSet p1.balances.byId btcCAIP19 balance,
                    ids := p1.balances.ids ++ [btcCAIP19] } }
  | .other _ => p1

/-- The normalizer accountsToPortfolio: fold the entries of the input mapping
over a fresh copy of the initial state. -/
def accountsToPortfolio (args : Obj Account) : Portfolio :=
  args.foldl processAccount initialState

/-- An asset record of the assets slice: the fields this slice reads (the
asset's own caip19 identifier and its precision). -/
structure AssetRecord where
  caip19 : String
  precision : ℕ
deriving DecidableEq

/-- A market-data record; price is a string in the source, modelled by the
value it denotes, with none standing for the empty string (the only falsy
string) or an absent field. -/
structure MarketEntry where
  price : Option ℚ
deriving DecidableEq

/-- Modelled from the spec: fromBaseUnit of lib/math is not among the reviewed
sources; per the spec, base units are the smallest indivisible unit prior to
precision scaling, so the conversion divides the (zero-coerced) value by
10 ^ precision. -/
def fromBaseUnit (value : Option BStr) (decimals : ℕ) : ℚ :=
  bnOrZero (value.getD none) / 10 ^ decimals

/-- selectTotalFiatBalance as a function of its three selector inputs (assets
by id, market data by id, portfolio crypto balances by id); the final
toNumber conversion is read as the exact decimal value of the result. -/
def selectTotalFiatBalance (assets : Obj AssetRecord) (marketData : Obj MarketEntry)
    (cryptoBalances : Obj BStr) : ℚ :=
  let result := cryptoBalances.foldl (fun acc e =>
    let precision := (objGet assets e.1).map AssetRecord.precision
    let price := (objGet marketData e.1).bind MarketEntry.price
    if price = none ∨ precision = none ∨ precision = some 0 then acc
    else
      let cryptoValue := fromBaseUnit (some e.2) (precision.getD 0)
      let assetFiatBalance := bnOrZero (some cryptoValue) * price.getD 0
      acc + assetFiatBalance) 0
  decimalPlaces 2 result

/-- selectAssetFiatBalance as a function of its selector inputs; the returned
string is read as the decimal value it denotes (toFixed(2) rounds half-up to
two places). -/
def selectAssetFiatBalance (assets : Obj AssetRecord) (marketData : Obj MarketEntry)
    (cryptoBalances : Obj BStr) (caip : String) : ℚ :=
  let balance := objGet cryptoBalances caip
  let precision := (objGet assets caip).map AssetRecord.precision
  let price := (objGet marketData caip).bind MarketEntry.price
  if price = none ∨ precision = none ∨ precision = some 0 then 0
  else toFixed2 (bnOrZero (some (fromBaseUnit balance (precision.getD 0))) * price.getD 0)

/-- Specification-worded per-entry fiat value, used to state the total-balance
claim: per-asset fiat balance is the balance converted from base units with
the asset's precision times the market price, and an asset lacking a market
price or a precision contributes 0. -/
def specEntryFiat (assets : Obj AssetRecord) (marketData : Obj MarketEntry)
    (e : String × BStr) : ℚ :=
  match (objGet assets e.1).map AssetRecord.precision,
      (objGet marketData e.1).bind MarketEntry.price with
  | some p, some pr => bnOrZero e.2 / 10 ^ p * pr
  | _, _ => 0

/-- Amended specification-worded per-entry fiat value: as specEntryFiat, but
an asset whose recorded precision is zero also contributes 0 (the code treats
a zero precision as unknown). -/
def specEntryFiatAmended (assets : Obj AssetRecord) (marketData : Obj MarketEntry)
    (e : String × BStr) : ℚ :=
  match (objGet assets e.1).map AssetRecord.precision,
      (objGet marketData e.1).bind MarketEntry.price with
  | some p, some pr => if p = 0 then 0 else bnOrZero e.2 / 10 ^ p * pr
  | _, _ => 0

/-- Specification-worded per-asset fiat balance for the single-asset selector
claim: the stored balance converted from base units using the asset's
precision, multiplied by the market price; 0 when price or precision is
unknown. -/
def specAssetFiat (assets : Obj AssetRecord) (marketData : Obj MarketEntry)
    (cryptoBalances : Obj BStr) (caip : String) : ℚ :=
  match (objGet assets caip).map AssetRecord.precision,
      (objGet marketData caip).bind MarketEntry.price with
  | some p, some pr => fromBaseUnit (objGet cryptoBalances caip) p * pr
  | _, _ => 0

/-- Amended specification-worded per-asset fiat balance: the product is
reported rounded to two decimal places (half-up), and a recorded precision of
zero is treated like an unknown precision, yielding 0. -/
def specAssetFiatAmended (assets : Obj AssetRecord) (marketData : Obj MarketEntry)
    (cryptoBalances : Obj BStr) (caip : String) : ℚ :=
  match (objGet assets caip).map AssetRecord.precision,
      (objGet marketData caip).bind MarketEntry.price with
  | some p, some pr =>
    if p = 0 then 0 else toFixed2 (fromBaseUnit (objGet cryptoBalances caip) p * pr)
  | _, _ => 0

/-- Outcome of one run of the useFetchAsset effect body. -/
inductive EffectOutcome where
  | noop : EffectOutcome
  | dispatchFetchAsset : String → EffectOutcome
  | typeError : EffectOutcome
deriving DecidableEq

/-- JavaScript member access o.f where o may be undefined: a TypeError is
raised when o is undefined. -/
def jsGetField {α β : Type} (o : Option α) (f : α → β) : Except String β :=
  match o with
  | some a => Except.ok (f a)
  | none => Except.error "TypeError"

/-- The effect body of useFetchAsset: select state.assets[tokenId ?? chain];
if the asset is present return early without dispatching, otherwise dispatch
fetchAsset(asset.caip19), whose argument is evaluated under JS member-access
semantics on the (absent) asset. -/
def useFetchAssetEffect (assets : Obj AssetRecord) (chain : ChainTypes)
    (tokenId : Option String) : EffectOutcome :=
  let asset := objGet assets (tokenId.getD chain.chainName)
  if asset.isSome then .noop
  else
    match jsGetField asset AssetRecord.caip19 with
    | .ok c => .dispatchFetchAsset c
    | .error _ => .typeError

/-- Outcome of Promise.allSettled for one account request. -/
inductive Settled (α : Type) where
  | fulfilled : α → Settled α
  | rejected : String → Settled α
deriving DecidableEq

/-- Models caip2.toCAIP2 of the external caip package. -/
def toCAIP2 (chain : ChainTypes) (network : String) : String :=
  chain.chainName ++ ":" ++ network

/-- Models caip10.toCAIP10 of the external caip package. -/
def toCAIP10 (caip2Id account : String) : String :=
  caip2Id ++ ":" ++ account

/-- The composite account identifier under which a fulfilled account response
is keyed: CAIP10 of (CAIP2 of the response's chain and network) and its
pubkey. -/
def accountCAIP10 (a : Account) : String :=
  toCAIP10 (toCAIP2 a.chain a.network) a.pubkey

/-- The settled outcomes of the one-request-per-entry fan-out performed by
portfolioApi.getAccounts.queryFn; getAccount abstracts the per-chain adapter
call selected from the decoded chain namespace, keyed here by the raw CAIP2
string and pubkey of the entry. -/
def settledOutcomes (getAccount : String → String → Settled Account)
    (pubkeys : Obj String) : List (Settled Account) :=
  pubkeys.map (fun e => getAccount e.1 e.2)

/-- The reduce step of queryFn over settled results: a rejected request is
logged and dropped; a fulfilled one is stored under its composite CAIP10
identifier. -/
def settleStep (acc : Obj Account) (cur : Settled Account) : Obj Account :=
  match cur with
  | .rejected _ => acc
  | .fulfilled v => objSet acc (accountCAIP10 v) v

/-- portfolioApi.getAccounts.queryFn as a function of the adapter oracle and
the input pubkeys mapping; an empty input short-circuits to an empty result,
and the function always returns data (no error value). -/
def getAccountsQueryFn (getAccount : String → String → Settled Account)
    (pubkeys : Obj String) : Obj Account :=
  if pubkeys.isEmpty then []
  else (settledOutcomes getAccount pubkeys).foldl settleStep []

/-- The composite identifiers of the fulfilled outcomes, in settlement
order. -/
def fulfilledIds (outcomes : List (Settled Account)) : List String :=
  outcomes.filterMap (fun s =>
    match s with
    | .fulfilled v => some (accountCAIP10 v)
    | .rejected _ => none)

/-- Deep structural equality of two Portfolios (lodash isEqual over the
Portfolio shape), as a boolean. -/
def portfolioStructEq (p q : Portfolio) : Bool :=
  decide (p.accounts.byId = q.accounts.byId) && decide (p.accounts.ids = q.accounts.ids)
    && decide (p.balances.byId = q.balances.byId) && decide (p.balances.ids = q.balances.ids)

theorem foldl_preserves {σ β : Type} (P : σ → Prop) (step : σ → β → σ)
    (h : ∀ s b, P s → P (step s b)) :
    ∀ (l : List β) (s : σ), P s → P (l.foldl step s) := by
  intro l
  induction l with
  | nil => intro s hs; exact hs
  | cons b rest ih => intro s hs; exact ih (step s b) (h s b hs)

/-- Invariant of C1: every asset identifier on any account's asset list has an
entry in the balances index. -/
def AssetsCovered (p : Portfolio) : Prop :=
  ∀ k l, objGet p.accounts.byId k = some l →
    ∀ a ∈ l, (objGet p.balances.byId a).isSome

theorem assetsCovered_initial : AssetsCovered initialState := by
  intro k l hget a ha
  simp [initialState] at hget

theorem assetsCovered_reset (p : Portfolio) (c10 : String) (accIds : List String)
    (h : AssetsCovered p) :
    AssetsCovered { p with accounts := { byId := objSet p.accounts.byId c10 [],
                                         ids := accIds } } := by
  intro k l hget a ha
  by_cases hk : k = c10
  · subst hk
    rw [objGet_objSet_self] at hget
    obtain rfl : ([] : List String) = l := Option.some.inj hget
    simp at ha
  · rw [objGet_objSet_ne _ _ hk] at hget
    exact h k l hget a ha

theorem assetsCovered_push (p : Portfolio) (c10 x : String) (b : BStr)
    (accIds balIds : List String) (h : AssetsCovered p) :
    AssetsCovered { accounts := { byId := objModify p.accounts.byId c10 (fun l => l ++ [x]),
                                  ids := accIds },
                    balances := { byId := objSet p.balances.byId x b, ids := balIds } } := by
  intro k l hget a ha
  simp only at hget
  rw [objGet_objModify] at hget
  by_cases hk : k = c10
  · rw [if_pos hk] at hget
    cases hg0 : objGet p.accounts.byId k with
    | none => rw [hg0] at hget; simp at hget
    | some l0 =>
      rw [hg0] at hget
      obtain rfl : l0 ++ [x] = l := Option.some.inj (by simpa using hget)
      rcases List.mem_append.mp ha with h1 | h2
      · have hs := h k l0 hg0 a h1
        exact (isSome_objGet_objSet _ _ _ _).mpr (Or.inr hs)
      · have hax : a = x := by simpa using h2
        exact (isSome_objGet_objSet _ _ _ _).mpr (Or.inl hax)
  · rw [if_neg hk] at hget
    have hs := h k l hget a ha
    exact (isSome_objGet_objSet _ _ _ _).mpr (Or.inr hs)

theorem assetsCovered_ethTokenStep (nw c10 : String) (p : Portfolio) (t : EthToken)
    (h : AssetsCovered p) : AssetsCovered (ethTokenStep nw c10 p t) := by
  unfold ethTokenStep
  exact assetsCovered_push p c10 (tokenAssetId nw t) t.balance _ _ h

theorem assetsCovered_processAccount (p : Portfolio) (e : String × Account)
    (h : AssetsCovered p) : AssetsCovered (processAccount p e) := by
  obtain ⟨c10, nw, pk, b, cs⟩ := e
  have hreset : AssetsCovered
      { p with accounts := { byId := objSet p.accounts.byId c10 [],
                             ids := p.accounts.ids ++ [c10] } } :=
    assetsCovered_reset p c10 _ h
  cases cs with
  | ethereum ecs =>
    cases hts : ecs.tokens with
    | none =>
      simp only [processAccount, hts]
      exact assetsCovered_push
        ⟨⟨objSet p.accounts.byId c10 [], p.accounts.ids ++ [c10]⟩, p.balances⟩
        c10 _ b _ _ hreset
    | some ts =>
      simp only [processAccount, hts]
      exact foldl_preserves AssetsCovered (ethTokenStep nw c10)
        (fun s t hs => assetsCovered_ethTokenStep nw c10 s t hs) ts _
        (assetsCovered_push
          ⟨⟨objSet p.accounts.byId c10 [], p.accounts.ids ++ [c10]⟩, p.balances⟩
          c10 _ b _ _ hreset)
  | bitcoin bcs =>
    simp only [processAccount]
    exact assetsCovered_push
      ⟨⟨objSet p.accounts.byId c10 [], p.accounts.ids ++ [c10]⟩, p.balances⟩
      c10 _ _ _ _ hreset
  | other n =>
    simp only [processAccount]
    exact hreset

/-- C1: for every input mapping, every CAIP19 asset identifier appearing on
any account's asset list of the produced Portfolio is also present as a key
of the balances index. -/
theorem accountsToPortfolio_assets_have_balances (args : Obj Account)
    (k : String) (l : List String) (a : String)
    (hk : objGet (accountsToPortfolio args).accounts.byId k = some l) (ha : a ∈ l) :
    (objGet (accountsToPortfolio args).balances.byId a).isSome := by
  have hinv : AssetsCovered (accountsToPortfolio args) :=
    foldl_preserves AssetsCovered processAccount
      (fun s e hs => assetsCovered_processAccount s e hs) args initialState
      assetsCovered_initial
  exact hinv k l hk a ha

/-- Concrete input for the C1 witness: one Ethereum account holding one
token. -/
def exC1args : Obj Account :=
  [("eip155:1:0xabc", ⟨"1", "0xabc", some 42, .ethereum ⟨some [⟨"erc20", "0xTOK", some 7⟩]⟩⟩)]

theorem accountsToPortfolio_assets_have_balances_witness :
    objGet (accountsToPortfolio exC1args).accounts.byId "eip155:1:0xabc"
        = some ["ethereum:1/slip44:0", "ethereum:1/erc20:0xtok"]
      ∧ (objGet (accountsToPortfolio exC1args).balances.byId "ethereum:1/erc20:0xtok").isSome :=
  ⟨by decide,
   accountsToPortfolio_assets_have_balances exC1args "eip155:1:0xabc"
     ["ethereum:1/slip44:0", "ethereum:1/erc20:0xtok"] "ethereum:1/erc20:0xtok"
     (by decide) (by decide)⟩

/-- Invariant of the amended C3: an identifier is on balances.ids exactly when
it is a key of balances.byId (ids may repeat). -/
def BalanceIdsMatch (p : Portfolio) : Prop :=
  ∀ a, a ∈ p.balances.ids ↔ (objGet p.balances.byId a).isSome

theorem idsMatch_push (p : Portfolio) (c10 x : String) (b : BStr)
    (accIds : List String) (h : BalanceIdsMatch p) :
    BalanceIdsMatch { accounts := { byId := objModify p.accounts.byId c10 (fun l => l ++ [x]),
                                    ids := accIds },
                      balances := { byId := objSet p.balances.byId x b,
                                    ids := p.balances.ids ++ [x] } } := by
  intro a
  simp only
  rw [List.mem_append, isSome_objGet_objSet]
  constructor
  · rintro (h1 | h2)
    · exact Or.inr ((h a).mp h1)
    · exact Or.inl (by simpa using h2)
  · rintro (h1 | h2)
    · exact Or.inr (by simpa using h1)
    · exact Or.inl ((h a).mpr h2)

theorem idsMatch_processAccount (p : Portfolio) (e : String × Account)
    (h : BalanceIdsMatch p) : BalanceIdsMatch (processAccount p e) := by
  obtain ⟨c10, nw, pk, b, cs⟩ := e
  have h1 : BalanceIdsMatch
      ⟨⟨objSet p.accounts.byId c10 [], p.accounts.ids ++ [c10]⟩, p.balances⟩ := h
  cases cs with
  | ethereum ecs =>
    cases hts : ecs.tokens with
    | none =>
      simp only [processAccount, hts]
      exact idsMatch_push
        ⟨⟨objSet p.accounts.byId c10 [], p.accounts.ids ++ [c10]⟩, p.balances⟩
        c10 _ b _ h1
    | some ts =>
      simp only [processAccount, hts]
      refine foldl_preserves BalanceIdsMatch (ethTokenStep nw c10) ?_ ts _
        (idsMatch_push
          ⟨⟨objSet p.accounts.byId c10 [], p.accounts.ids ++ [c10]⟩, p.balances⟩
          c10 _ b _ h1)
      intro s t hs
      unfold ethTokenStep
      exact idsMatch_push s c10 (tokenAssetId nw t) t.balance _ hs
  | bitcoin bcs =>
    simp only [processAccount]
    exact idsMatch_push
      ⟨⟨objSet p.accounts.byId c10 [], p.accounts.ids ++ [c10]⟩, p.balances⟩
      c10 _ _ _ h1
  | other n =>
    simp only [processAccount]
    exact h

/-- Counterexample to C3 as stated: two Bitcoin accounts on the same network
produce the same native asset identifier twice in balances.ids, so the list
is not duplicate-free. -/
theorem balances_ids_not_nodup :
    ¬ ((accountsToPortfolio
        [("b1", ⟨"m", "p1", none, .bitcoin ⟨none⟩⟩),
         ("b2", ⟨"m", "p2", none, .bitcoin ⟨none⟩⟩)]).balances.ids).Nodup := by
  decide

/-- Amended C3: the identifiers listed in balances.ids are exactly the keys of
balances.byId (membership in both directions), though balances.ids may list an
identifier more than once when several accounts or tokens map to it. -/
theorem balances_ids_match_byId (args : Obj Account) (a : String) :
    a ∈ (accountsToPortfolio args).balances.ids
      ↔ (objGet (accountsToPortfolio args).balances.byId a).isSome := by
  have hinv : BalanceIdsMatch (accountsToPortfolio args) :=
    foldl_preserves BalanceIdsMatch processAccount
      (fun s e hs => idsMatch_processAccount s e hs) args initialState
      (by intro a; simp [initialState])
  exact hinv a

/-- Counterexample to C4 as stated: a record with an unknown chain kind still
yields an account entry (the account id is registered, with an empty asset
list), so the Portfolio is not free of entries derived from that record. -/
theorem unknown_chain_account_still_registered :
    "cosmos:xpub" ∈ (accountsToPortfolio
      [("cosmos:xpub", ⟨"m", "pk", some 1, .other "cosmos"⟩)]).accounts.ids := by
  decide

/-- Amended C4: a record with an unknown chain kind is skipped silently after
the registration step common to all records: it yields no balance entries and
an empty asset list, but its account id is still registered in the accounts
index and id list; no error is raised (processing is total). -/
theorem unknown_chain_record_skipped (c10 nw pk name : String) (b : BStr) :
    (∀ p : Portfolio, processAccount p (c10, ⟨nw, pk, b, .other name⟩)
      = { p with accounts := { byId := objSet p.accounts.byId c10 [],
                               ids := p.accounts.ids ++ [c10] } })
    ∧ accountsToPortfolio [(c10, ⟨nw, pk, b, .other name⟩)]
      = ⟨⟨[(c10, [])], [c10]⟩, ⟨[], []⟩⟩ := by
  constructor
  · intro p
    rfl
  · simp [accountsToPortfolio, processAccount, initialState, objSet]

theorem tokFold_accounts_byId (nw c10 : String) (ts : List EthToken) (p : Portfolio) :
    (ts.foldl (ethTokenStep nw c10) p).accounts.byId
      = objModify p.accounts.byId c10 (fun l => l ++ ts.map (tokenAssetId nw)) := by
  induction ts generalizing p with
  | nil =>
    simp only [List.foldl_nil, List.map_nil]
    exact (objModify_id _ _ _ (by simp)).symm
  | cons t rest ih =>
    rw [List.foldl_cons, ih]
    show objModify (objModify p.accounts.byId c10 (fun l => l ++ [tokenAssetId nw t])) c10 _ = _
    rw [objModify_objModify]
    apply objModify_congr
    intro l
    simp

theorem tokFold_accounts_ids (nw c10 : String) (ts : List EthToken) (p : Portfolio) :
    (ts.foldl (ethTokenStep nw c10) p).accounts.ids = p.accounts.ids := by
  induction ts generalizing p with
  | nil => rfl
  | cons t rest ih => rw [List.foldl_cons, ih]; rfl

theorem tokFold_balances_ids (nw c10 : String) (ts : List EthToken) (p : Portfolio) :
    (ts.foldl (ethTokenStep nw c10) p).balances.ids
      = p.balances.ids ++ ts.map (tokenAssetId nw) := by
  induction ts generalizing p with
  | nil => simp
  | cons t rest ih =>
    rw [List.foldl_cons, ih]
    show (p.balances.ids ++ [tokenAssetId nw t]) ++ _ = _
    simp

theorem tokFold_balances_byId_not_mem (nw c10 : String) (ts : List EthToken) :
    ∀ (p : Portfolio) (a : String), a ∉ ts.map (tokenAssetId nw) →
      objGet (ts.foldl (ethTokenStep nw c10) p).balances.byId a
        = objGet p.balances.byId a := by
  induction ts with
  | nil => intro p a _; rfl
  | cons t rest ih =>
    intro p a ha
    rw [List.map_cons, List.mem_cons] at ha
    push_neg at ha
    rw [List.foldl_cons, ih (ethTokenStep nw c10 p t) a ha.2]
    show objGet (objSet p.balances.byId (tokenAssetId nw t) t.balance) a = _
    exact objGet_objSet_ne _ _ ha.1

theorem tokFold_balances_byId_mem (nw c10 : String) (ts : List EthToken) :
    ∀ (p : Portfolio) (t : EthToken), (ts.map (tokenAssetId nw)).Nodup → t ∈ ts →
      objGet (ts.foldl (ethTokenStep nw c10) p).balances.byId (tokenAssetId nw t)
        = some t.balance := by
  induction ts with
  | nil => intro p t _ ht; simp at ht
  | cons s rest ih =>
    intro p t hnd ht
    rw [List.map_cons] at hnd
    have hnotin : tokenAssetId nw s ∉ rest.map (tokenAssetId nw) :=
      (List.nodup_cons.mp hnd).1
    have hndr : (rest.map (tokenAssetId nw)).Nodup := (List.nodup_cons.mp hnd).2
    rw [List.foldl_cons]
    rcases List.mem_cons.mp ht with rfl | hrest
    · rw [tokFold_balances_byId_not_mem nw c10 rest _ _ hnotin]
      show objGet (objSet p.balances.byId (tokenAssetId nw t) t.balance) (tokenAssetId nw t)
        = some t.balance
      exact objGet_objSet_self _ _ _
    · exact ih (ethTokenStep nw c10 p s) t hndr hrest

/-- C8: an Ethereum account contributes the chain's native asset identifier
with the account balance, one lowercased token asset identifier with each
token's balance, and appends each recorded identifier to the account's asset
list (so two tokens give a length-3 asset list and three balance entries);
an account without a token list contributes only the native entry. The
byId lookups are stated under the assumption that the produced identifiers do
not collide. -/
theorem eth_account_portfolio (c10 nw pk : String) (b : BStr) (ts : List EthToken)
    (hne : toCAIP19 .Ethereum nw ∉ ts.map (tokenAssetId nw))
    (hnd : (ts.map (tokenAssetId nw)).Nodup) :
    objGet (accountsToPortfolio
        [(c10, ⟨nw, pk, b, .ethereum ⟨some ts⟩⟩)]).accounts.byId c10
      = some (toCAIP19 .Ethereum nw :: ts.map (tokenAssetId nw))
    ∧ (accountsToPortfolio [(c10, ⟨nw, pk, b, .ethereum ⟨some ts⟩⟩)]).balances.ids
      = toCAIP19 .Ethereum nw :: ts.map (tokenAssetId nw)
    ∧ objGet (accountsToPortfolio
        [(c10, ⟨nw, pk, b, .ethereum ⟨some ts⟩⟩)]).balances.byId (toCAIP19 .Ethereum nw)
      = some b
    ∧ (∀ t ∈ ts, objGet (accountsToPortfolio
        [(c10, ⟨nw, pk, b, .ethereum ⟨some ts⟩⟩)]).balances.byId (tokenAssetId nw t)
      = some t.balance)
    ∧ accountsToPortfolio [(c10, ⟨nw, pk, b, .ethereum ⟨none⟩⟩)]
      = ⟨⟨[(c10, [toCAIP19 .Ethereum nw])], [c10]⟩,
         ⟨[(toCAIP19 .Ethereum nw, b)], [toCAIP19 .Ethereum nw]⟩⟩ := by
  have e : accountsToPortfolio [(c10, ⟨nw, pk, b, .ethereum ⟨some ts⟩⟩)]
      = ts.foldl (ethTokenStep nw c10)
          ⟨⟨[(c10, [toCAIP19 .Ethereum nw])], [c10]⟩,
           ⟨[(toCAIP19 .Ethereum nw, b)], [toCAIP19 .Ethereum nw]⟩⟩ := by
    simp [accountsToPortfolio, processAccount, initialState, objSet, objModify]
  refine ⟨?_, ?_, ?_, ?_, ?_⟩
  · rw [e, tokFold_accounts_byId, objGet_objModify]
    simp
  · rw [e, tokFold_balances_ids]
    simp
  · rw [e, tokFold_balances_byId_not_mem nw c10 ts _ _ hne]
    simp
  · intro t ht
    rw [e, tokFold_balances_byId_mem nw c10 ts _ t hnd ht]
  · simp [accountsToPortfolio, processAccount, initialState, objSet, objModify]

/-- Concrete input for the C8 witness: one Ethereum account with two
tokens. -/
def exC8args : Obj Account :=
  [("eip155:1:0xme", ⟨"1", "0xme", some 5,
    .ethereum ⟨some [⟨"erc20", "0xAAA", some 1⟩, ⟨"erc20", "0xBBB", some 2⟩]⟩⟩)]

theorem eth_account_portfolio_witness :
    objGet (accountsToPortfolio exC8args).accounts.byId "eip155:1:0xme"
      = some ["ethereum:1/slip44:0", "ethereum:1/erc20:0xaaa", "ethereum:1/erc20:0xbbb"]
    ∧ (accountsToPortfolio exC8args).balances.ids.length = 3 := by
  have h := eth_account_portfolio "eip155:1:0xme" "1" "0xme" (some 5)
    [⟨"erc20", "0xAAA", some 1⟩, ⟨"erc20", "0xBBB", some 2⟩] (by decide) (by decide)
  constructor
  · rw [show exC8args = [("eip155:1:0xme", ⟨"1", "0xme", some 5,
      .ethereum ⟨some [⟨"erc20", "0xAAA", some 1⟩, ⟨"erc20", "0xBBB", some 2⟩]⟩⟩)] from rfl,
      h.1]
    decide
  · rw [show exC8args = [("eip155:1:0xme", ⟨"1", "0xme", some 5,
      .ethereum ⟨some [⟨"erc20", "0xAAA", some 1⟩, ⟨"erc20", "0xBBB", some 2⟩]⟩⟩)] from rfl,
      h.2.1]
    decide

theorem foldl_add_map {α : Type} (f : α → ℚ) (l : List α) :
    ∀ init : ℚ, l.foldl (fun acc x => acc + f x) init = init + (l.map f).sum := by
  induction l with
  | nil => intro init; simp
  | cons x rest ih =>
    intro init
    rw [List.foldl_cons, ih (init + f x)]
    simp [add_assoc]

theorem sum_intValued {α : Type} (f : α → ℚ) (l : List α)
    (h : ∀ a ∈ l, ∃ z : ℤ, f a = (z : ℚ)) :
    ∃ z : ℤ, (l.map f).sum = (z : ℚ) := by
  induction l with
  | nil => exact ⟨0, by simp⟩
  | cons x rest ih =>
    obtain ⟨z1, hz1⟩ := h x (List.mem_cons_self x rest)
    obtain ⟨z2, hz2⟩ := ih (fun a ha => h a (List.mem_cons_of_mem x ha))
    exact ⟨z1 + z2, by rw [List.map_cons, List.sum_cons, hz1, hz2]; push_cast; ring⟩

/-- C7: a Bitcoin account contributes exactly one asset identifier to its
asset list, whose recorded balance is the sum of the balances of all derived
addresses, each coerced to zero when absent or invalid (bnOrZero); with no
address list the recorded balance is 0. The integrality hypothesis reflects
that address balances denote base-unit (satoshi) integers, under which the
trailing decimalPlaces(0) is the identity. -/
theorem btc_account_portfolio (c10 nw pk : String) (b : BStr) (addrs : List BtcAddress)
    (hInt : ∀ a ∈ addrs, ∃ z : ℤ, bnOrZero a.balance = (z : ℚ)) :
    objGet (accountsToPortfolio
        [(c10, ⟨nw, pk, b, .bitcoin ⟨some addrs⟩⟩)]).accounts.byId c10
      = some [toCAIP19 .Bitcoin nw]
    ∧ (accountsToPortfolio [(c10, ⟨nw, pk, b, .bitcoin ⟨some addrs⟩⟩)]).balances.ids
      = [toCAIP19 .Bitcoin nw]
    ∧ objGet (accountsToPortfolio
        [(c10, ⟨nw, pk, b, .bitcoin ⟨some addrs⟩⟩)]).balances.byId (toCAIP19 .Bitcoin nw)
      = some (some ((addrs.map (fun a => bnOrZero a.balance)).sum))
    ∧ objGet (accountsToPortfolio
        [(c10, ⟨nw, pk, b, .bitcoin ⟨none⟩⟩)]).balances.byId (toCAIP19 .Bitcoin nw)
      = some (some 0) := by
  have hsum : (addrs.foldl (fun acc cur => acc + bnOrZero cur.balance) 0)
      = (addrs.map (fun a => bnOrZero a.balance)).sum := by
    rw [foldl_add_map]
    simp
  obtain ⟨z, hz⟩ := sum_intValued (fun a => bnOrZero a.balance) addrs hInt
  refine ⟨?_, ?_, ?_, ?_⟩
  · simp [accountsToPortfolio, processAccount, initialState, objSet, objModify]
  · simp [accountsToPortfolio, processAccount, initialState, objSet, objModify]
  · simp only [accountsToPortfolio, List.foldl_cons, List.foldl_nil]
    simp [processAccount, initialState, objSet, objModify]
    rw [hsum, hz, decimalPlaces_zero_intCast]
  · simp only [accountsToPortfolio, List.foldl_cons, List.foldl_nil]
    simp [processAccount, initialState, objSet, objModify]
    rw [show ((0 : ℚ)) = ((0 : ℤ) : ℚ) by norm_num, decimalPlaces_zero_intCast]

theorem btc_account_portfolio_witness :
    objGet (accountsToPortfolio
        [("btc:xpub", ⟨"m", "xpub", none, .bitcoin
          ⟨some [⟨"a1", some 100⟩, ⟨"a2", some 250⟩, ⟨"a3", some 0⟩]⟩⟩)]).balances.byId
        (toCAIP19 .Bitcoin "m")
      = some (some 350)
    ∧ objGet (accountsToPortfolio
        [("btc:empty", ⟨"m", "xpub", none, .bitcoin ⟨none⟩⟩)]).balances.byId
        (toCAIP19 .Bitcoin "m")
      = some (some 0) := by
  have h := btc_account_portfolio "btc:xpub" "m" "xpub" none
    [⟨"a1", some 100⟩, ⟨"a2", some 250⟩, ⟨"a3", some 0⟩]
    (by
      intro a ha
      fin_cases ha
      · exact ⟨100, by norm_num [bnOrZero]⟩
      · exact ⟨250, by norm_num [bnOrZero]⟩
      · exact ⟨0, by norm_num [bnOrZero]⟩)
  have h2 := btc_account_portfolio "btc:empty" "m" "xpub" none []
    (by intro a ha; simp at ha)
  constructor
  · rw [h.2.2.1]
    norm_num [bnOrZero]
  · exact h2.2.2.2

/-- C10: the normalizer is deterministic and side-effect free; re-running it
on the same raw input yields structurally equal Portfolios (deep equality in
the sense of lodash isEqual). -/
theorem accountsToPortfolio_deterministic (args : Obj Account) :
    portfolioStructEq (accountsToPortfolio args) (accountsToPortfolio args) = true := by
  simp [portfolioStructEq]

theorem foldl_eq_sum_map {α : Type} (f : ℚ → α → ℚ) (g : α → ℚ)
    (h : ∀ acc e, f acc e = acc + g e) (l : List α) :
    ∀ init : ℚ, l.foldl f init = init + (l.map g).sum := by
  induction l with
  | nil => intro init; simp
  | cons x rest ih =>
    intro init
    rw [List.foldl_cons, h, ih (init + g x)]
    simp [add_assoc]

theorem decimalPlaces_zero_val (n : ℕ) : decimalPlaces n 0 = 0 := by
  have h := decimalPlaces_intCast n 0
  simpa using h

/-- Amended C5: the total fiat balance is the exact decimal sum of the
per-entry fiat values rounded to two places, where an entry lacking a market
price or a precision, or whose recorded precision is zero, contributes 0. -/
theorem selectTotalFiatBalance_eq_spec (assets : Obj AssetRecord)
    (marketData : Obj MarketEntry) (cryptoBalances : Obj BStr) :
    selectTotalFiatBalance assets marketData cryptoBalances
      = decimalPlaces 2
          ((cryptoBalances.map (specEntryFiatAmended assets marketData)).sum) := by
  unfold selectTotalFiatBalance
  have hstep : ∀ (acc : ℚ) (e : String × BStr),
      (let precision := (objGet assets e.1).map AssetRecord.precision
       let price := (objGet marketData e.1).bind MarketEntry.price
       if price = none ∨ precision = none ∨ precision = some 0 then acc
       else
         let cryptoValue := fromBaseUnit (some e.2) (precision.getD 0)
         let assetFiatBalance := bnOrZero (some cryptoValue) * price.getD 0
         acc + assetFiatBalance)
      = acc + specEntryFiatAmended assets marketData e := by
    intro acc e
    unfold specEntryFiatAmended
    cases hp : (objGet assets e.1).map AssetRecord.precision with
    | none => simp [hp]
    | some p =>
      cases hpr : (objGet marketData e.1).bind MarketEntry.price with
      | none => simp [hp, hpr]
      | some pr =>
        by_cases hp0 : p = 0
        · simp [hp, hpr, hp0]
        · simp only [hp, hpr]
          rw [if_neg (by simp [hp0]), if_neg hp0]
          simp [fromBaseUnit, bnOrZero]
  rw [foldl_eq_sum_map _ (specEntryFiatAmended assets marketData) hstep, zero_add]

/-- Counterexample to C5 as stated: an asset whose recorded precision is 0
(present, not lacking) and whose price is known is skipped by the code, while
the claimed exact sum gives it its fiat value; the selector returns 0 where
the claim demands 10. -/
theorem selectTotalFiatBalance_ne_claimed :
    selectTotalFiatBalance [("ast", ⟨"ast", 0⟩)] [("ast", ⟨some 2⟩)] [("ast", some 5)]
      ≠ decimalPlaces 2
          ((([("ast", some 5)] : Obj BStr).map
            (specEntryFiat [("ast", ⟨"ast", 0⟩)] [("ast", ⟨some 2⟩)])).sum) := by
  have hL : selectTotalFiatBalance [("ast", ⟨"ast", 0⟩)] [("ast", ⟨some 2⟩)]
      [("ast", some 5)] = 0 := by
    unfold selectTotalFiatBalance
    simp [objGet, decimalPlaces_zero_val]
  have hR : decimalPlaces 2
      ((([("ast", some 5)] : Obj BStr).map
        (specEntryFiat [("ast", ⟨"ast", 0⟩)] [("ast", ⟨some 2⟩)])).sum) = 10 := by
    have e1 : (([("ast", some 5)] : Obj BStr).map
        (specEntryFiat [("ast", ⟨"ast", 0⟩)] [("ast", ⟨some 2⟩)])).sum = 10 := by
      simp [specEntryFiat, objGet, bnOrZero]
      norm_num
    rw [e1, show ((10 : ℚ)) = ((10 : ℤ) : ℚ) by norm_num, decimalPlaces_intCast]
  rw [hL, hR]
  norm_num

/-- C6 (amended): the per-asset fiat balance selector returns the stored
balance converted from base units with the asset's precision times the market
price, rounded to two decimal places, and returns 0 when the price or the
precision is unknown or the recorded precision is zero; in particular balance
150000000 with precision 8 and price 2 yields 3. -/
theorem selectAssetFiatBalance_eq_spec :
    (∀ (assets : Obj AssetRecord) (marketData : Obj MarketEntry)
       (cryptoBalances : Obj BStr) (caip : String),
      selectAssetFiatBalance assets marketData cryptoBalances caip
        = specAssetFiatAmended assets marketData cryptoBalances caip)
    ∧ selectAssetFiatBalance [("btcid", ⟨"btcid", 8⟩)] [("btcid", ⟨some 2⟩)]
        [("btcid", some 150000000)] "btcid" = 3 := by
  constructor
  · intro assets marketData cryptoBalances caip
    unfold selectAssetFiatBalance specAssetFiatAmended
    cases hp : (objGet assets caip).map AssetRecord.precision with
    | none => simp [hp]
    | some p =>
      cases hpr : (objGet marketData caip).bind MarketEntry.price with
      | none => simp [hp, hpr]
      | some pr =>
        by_cases hp0 : p = 0
        · simp [hp, hpr, hp0]
        · simp only [hp, hpr]
          rw [if_neg (by simp [hp0]), if_neg hp0]
          simp [bnOrZero]
  · unfold selectAssetFiatBalance
    simp [objGet, toFixed2, fromBaseUnit, bnOrZero]
    rw [show (150000000 : ℚ) / 10 ^ 8 * 2 = ((3 : ℤ) : ℚ) by push_cast; norm_num,
      decimalPlaces_intCast]
    norm_num

/-- Counterexample to C6 as stated: with a recorded precision of 0 and price
2 on balance 5, the claimed value (converted balance times price) is 10, but
the selector returns 0 because a zero precision is falsy. -/
theorem selectAssetFiatBalance_ne_claimed :
    selectAssetFiatBalance [("tok", ⟨"tok", 0⟩)] [("tok", ⟨some 2⟩)]
        [("tok", some 5)] "tok"
      ≠ specAssetFiat [("tok", ⟨"tok", 0⟩)] [("tok", ⟨some 2⟩)]
        [("tok", some 5)] "tok" := by
  have hL : selectAssetFiatBalance [("tok", ⟨"tok", 0⟩)] [("tok", ⟨some 2⟩)]
      [("tok", some 5)] "tok" = 0 := by
    unfold selectAssetFiatBalance
    simp [objGet]
  have hR : specAssetFiat [("tok", ⟨"tok", 0⟩)] [("tok", ⟨some 2⟩)]
      [("tok", some 5)] "tok" = 10 := by
    simp [specAssetFiat, objGet, fromBaseUnit, bnOrZero]
    norm_num
  rw [hL, hR]
  norm_num

/-- C2: the useFetchAsset effect body is not safe for absent assets: when the
selected asset is missing from the store, the early return is not taken and
the dispatch argument asset.caip19 is a member access on undefined, raising a
TypeError; when the asset is present the effect returns early without
dispatching. -/
theorem useFetchAssetEffect_absent_typeError :
    useFetchAssetEffect [] .Ethereum none = .typeError
    ∧ useFetchAssetEffect [("ethereum", ⟨"eip155:1/slip44:60", 18⟩)] .Ethereum none
      = .noop := by
  constructor
  · rfl
  · rfl

@[simp]
theorem fulfilledIds_nil : fulfilledIds [] = [] := rfl

@[simp]
theorem fulfilledIds_cons_fulfilled (v : Account) (rest : List (Settled Account)) :
    fulfilledIds (.fulfilled v :: rest) = accountCAIP10 v :: fulfilledIds rest := by
  simp [fulfilledIds]

@[simp]
theorem fulfilledIds_cons_rejected (r : String) (rest : List (Settled Account)) :
    fulfilledIds (.rejected r :: rest) = fulfilledIds rest := by
  simp [fulfilledIds]

theorem objGet_eq_none_of_not_mem_keys {α : Type} (m : Obj α) (k : String)
    (h : k ∉ objKeys m) : objGet m k = none := by
  induction m with
  | nil => rfl
  | cons p rest ih =>
    obtain ⟨k2, v⟩ := p
    simp only [objKeys, List.map_cons, List.mem_cons] at h
    push_neg at h
    rw [objGet_cons, if_neg (fun he => h.1 he.symm)]
    exact ih h.2

theorem settle_foldl_get_not_mem (outcomes : List (Settled Account)) :
    ∀ (acc : Obj Account) (k : String), k ∉ fulfilledIds outcomes →
      objGet (outcomes.foldl settleStep acc) k = objGet acc k := by
  induction outcomes with
  | nil => intro acc k _; rfl
  | cons o rest ih =>
    intro acc k hk
    cases o with
    | rejected r =>
      rw [List.foldl_cons]
      exact ih acc k (by simpa using hk)
    | fulfilled v =>
      rw [fulfilledIds_cons_fulfilled, List.mem_cons] at hk
      push_neg at hk
      rw [List.foldl_cons]
      show objGet (rest.foldl settleStep (objSet acc (accountCAIP10 v) v)) k = _
      rw [ih _ k hk.2]
      exact objGet_objSet_ne _ _ hk.1

theorem settle_foldl_get_fulfilled (outcomes : List (Settled Account)) :
    ∀ (acc : Obj Account) (v : Account), (fulfilledIds outcomes).Nodup →
      Settled.fulfilled v ∈ outcomes →
      objGet (outcomes.foldl settleStep acc) (accountCAIP10 v) = some v := by
  induction outcomes with
  | nil => intro acc v _ hm; simp at hm
  | cons o rest ih =>
    intro acc v hnd hm
    rcases List.mem_cons.mp hm with heq | hrest
    · obtain rfl : o = Settled.fulfilled v := heq.symm
      rw [fulfilledIds_cons_fulfilled] at hnd
      have hni : accountCAIP10 v ∉ fulfilledIds rest := (List.nodup_cons.mp hnd).1
      rw [List.foldl_cons]
      show objGet (rest.foldl settleStep (objSet acc (accountCAIP10 v) v)) (accountCAIP10 v)
        = some v
      rw [settle_foldl_get_not_mem rest _ _ hni]
      exact objGet_objSet_self _ _ _
    · cases o with
      | rejected r =>
        rw [List.foldl_cons]
        exact ih acc v (by simpa using hnd) hrest
      | fulfilled w =>
        rw [fulfilledIds_cons_fulfilled] at hnd
        rw [List.foldl_cons]
        exact ih _ v (List.nodup_cons.mp hnd).2 hrest

theorem settle_foldl_keys (outcomes : List (Settled Account)) :
    ∀ acc : Obj Account, (objKeys acc ++ fulfilledIds outcomes).Nodup →
      objKeys (outcomes.foldl settleStep acc) = objKeys acc ++ fulfilledIds outcomes := by
  induction outcomes with
  | nil => intro acc _; simp
  | cons o rest ih =>
    intro acc hnd
    cases o with
    | rejected r =>
      rw [List.foldl_cons]
      show objKeys (rest.foldl settleStep acc) = _
      rw [ih acc (by simpa using hnd)]
      simp
    | fulfilled v =>
      rw [fulfilledIds_cons_fulfilled] at hnd
      have hdisj := (List.nodup_append.mp hnd).2.2
      have hnotin : accountCAIP10 v ∉ objKeys acc :=
        fun hmem => hdisj hmem (List.mem_cons_self _ _)
      have hnone : objGet acc (accountCAIP10 v) = none :=
        objGet_eq_none_of_not_mem_keys acc _ hnotin
      have hkeys : objKeys (objSet acc (accountCAIP10 v) v)
          = objKeys acc ++ [accountCAIP10 v] := objKeys_objSet_of_absent v hnone
      have hnd2 : (objKeys (objSet acc (accountCAIP10 v) v) ++ fulfilledIds rest).Nodup := by
        rw [hkeys, List.append_assoc]
        simpa using hnd
      rw [List.foldl_cons]
      show objKeys (rest.foldl settleStep (objSet acc (accountCAIP10 v) v)) = _
      rw [ih _ hnd2, hkeys]
      simp

/-- C9: for a non-empty pubkeys mapping, queryFn issues one request per input
entry and considers every settled outcome: a rejected request contributes
nothing (it is logged and excluded without surfacing an error or aborting the
others), while each fulfilled request contributes exactly one entry keyed by
its composite CAIP10 account identifier (stated under the assumption that the
derived identifiers are pairwise distinct). -/
theorem getAccountsQueryFn_settles_all (getAccount : String → String → Settled Account)
    (pubkeys : Obj String) (hne : pubkeys ≠ [])
    (hnd : (fulfilledIds (settledOutcomes getAccount pubkeys)).Nodup) :
    (settledOutcomes getAccount pubkeys).length = pubkeys.length
    ∧ objKeys (getAccountsQueryFn getAccount pubkeys)
      = fulfilledIds (settledOutcomes getAccount pubkeys)
    ∧ ∀ v : Account, Settled.fulfilled v ∈ settledOutcomes getAccount pubkeys →
        objGet (getAccountsQueryFn getAccount pubkeys) (accountCAIP10 v) = some v := by
  have hempty : pubkeys.isEmpty = false := by
    cases pubkeys with
    | nil => exact absurd rfl hne
    | cons p rest => rfl
  refine ⟨by simp [settledOutcomes], ?_, ?_⟩
  · unfold getAccountsQueryFn
    rw [if_neg (by simp [hempty])]
    have h := settle_foldl_keys (settledOutcomes getAccount pubkeys) []
      (by simpa [objKeys] using hnd)
    simpa [objKeys] using h
  · intro v hv
    unfold getAccountsQueryFn
    rw [if_neg (by simp [hempty])]
    exact settle_foldl_get_fulfilled _ [] v hnd hv

/-- Concrete adapter oracle for the C9 witness: the Ethereum-namespace request
succeeds and every other request is rejected. -/
def exGetAccount : String → String → Settled Account := fun c2 pk =>
  if c2 = "eip155:1" then Settled.fulfilled ⟨"1", pk, some 10, .ethereum ⟨none⟩⟩
  else Settled.rejected "network down"

theorem getAccountsQueryFn_settles_all_witness :
    (settledOutcomes exGetAccount [("eip155:1", "pkA"), ("bip122:m", "pkB")]).length = 2
    ∧ objKeys (getAccountsQueryFn exGetAccount [("eip155:1", "pkA"), ("bip122:m", "pkB")])
      = ["ethereum:1:pkA"] := by
  have h := getAccountsQueryFn_settles_all exGetAccount
    [("eip155:1", "pkA"), ("bip122:m", "pkB")] (by decide) (by decide)
  constructor
  · rw [h.1]
    decide
  · rw [h.2.1]
    decide

end PortfolioSpec
